import Mathlib

/-!
Shallow embedding of `calculatePiDigitsString` from `src/PiTime.cpp`, a
Rabinowitz–Wagon spigot generator for decimal digits of π, together with
theorems settling the specification claims about it.

Modelling conventions:
* C++ `int` / `long long` values are modelled as `ℤ`.  All reachable
  intermediate values of the algorithm are nonnegative and far below 2^31
  (resp. 2^63) for the inputs considered, so machine overflow does not
  enter; nonnegativity is proved below (claim C9).
* C++ `/` and `%` truncate toward zero; they are modelled by `Int.tdiv`
  and `Int.tmod`, which have exactly those semantics.
* The state array `a` (a `std::vector<int>` of length `len`) is modelled
  as a `List ℤ`; index `0` is the head.
* `static_cast<int>(std::floor(10.0 * n / 3.0))` equals the integer
  quotient `(10 * n).tdiv 3` for every `int` value of `n ≥ 0`: `10.0 * n`
  is exactly representable and the division by `3.0` errs by less than
  one ulp, far less than the distance `1/3` to the next integer, so the
  floor is unaffected.  It is modelled by `(10 * n).tdiv 3`.
-/

/-- One pass of the inner normalization loop of `calculatePiDigitsString`
(`for (int i = len - 1; i > 0; --i)` in `src/PiTime.cpp`, lines 124–128).
`innerAux i0 xs cIn` processes the slice of the state vector starting at
index `i0` (the list `xs`), feeding the carry `cIn` into the highest index
first and propagating carries right-to-left, and returns the updated slice
together with the carry that flows out of index `i0`.  Each position `i`
computes `num = a[i] * 10 + carry`, stores `num % (2*i+1)` and passes on
`(num / (2*i+1)) * i`, with C++ truncated division. -/
def innerAux : ℕ → List ℤ → ℤ → List ℤ × ℤ
  | _, [], cIn => ([], cIn)
  | i0, x :: xs, cIn =>
      match innerAux (i0 + 1) xs cIn with
      | (xs2, c) =>
          (Int.tmod (x * 10 + c) (2 * (i0 : ℤ) + 1) :: xs2,
           Int.tdiv (x * 10 + c) (2 * (i0 : ℤ) + 1) * (i0 : ℤ))

/-- The candidate digit extracted after the inner pass
(`src/PiTime.cpp`, lines 129–135): `q = (a[0]*10 + carry) / 10`,
clamped to `10` when `q ≥ 10`. -/
def extractQ (a0 carry : ℤ) : ℤ :=
  let q := Int.tdiv (a0 * 10 + carry) 10
  if 10 ≤ q then 10 else q

/-- The updated value of `a[0]` after the inner pass
(`src/PiTime.cpp`, line 131): `a[0] = (a[0]*10 + carry) % 10`. -/
def extractA0 (a0 carry : ℤ) : ℤ :=
  Int.tmod (a0 * 10 + carry) 10

/-- The digits appended to `calculated_digits` in one outer iteration
(`src/PiTime.cpp`, lines 137–150): nothing on the first iteration
(`j = 0`); otherwise, for `q < 9` the pending `predigit` followed by
`nines` nines, for `q = 10` the pending `predigit + 1` followed by
`nines` zeros, and nothing for `q = 9`. -/
def resolveCommit (q : ℤ) (j : ℕ) (committed : List ℤ) (nines predigit : ℤ) :
    List ℤ :=
  if 0 < j then
    if q < 9 then committed ++ predigit :: List.replicate nines.toNat 9
    else if q = 10 then committed ++ (predigit + 1) :: List.replicate nines.toNat 0
    else committed
  else committed

/-- The update of the buffering scalars `(nines, predigit)` in one outer
iteration (`src/PiTime.cpp`, lines 152–163).  Returns the new pair
`(nines, predigit)`. -/
def updateBuffer (q : ℤ) (j : ℕ) (nines predigit : ℤ) : ℤ × ℤ :=
  if q < 9 then (if 0 < j then 0 else nines, q)
  else if q = 9 then
    (if 0 < j then nines + 1 else nines, if 0 < j then predigit else q)
  else (if 0 < j then 0 else nines, 0)

/-- The mutable state of one invocation of `calculatePiDigitsString`:
the mixed-radix vector `a`, the committed digit sequence
`calculated_digits`, the buffering scalars `nines` and `predigit`, and
the outer loop counter `j`. -/
structure SpigotState where
  a : List ℤ
  committed : List ℤ
  nines : ℤ
  predigit : ℤ
  j : ℕ
deriving DecidableEq

/-- One outer iteration of `calculatePiDigitsString`
(`src/PiTime.cpp`, lines 122–163, without the break test): run the inner
normalization pass over indices `len-1` down to `1`, extract the candidate
digit `q` and the new `a[0]` from the final carry, clamp `q`, commit
buffered digits and update the buffering scalars, and advance `j`. -/
def outerStep (s : SpigotState) : SpigotState :=
  match s.a with
  | [] => s
  | a0 :: rest =>
      match innerAux 1 rest 0 with
      | (rest2, carry) =>
          let q := extractQ a0 carry
          { a := extractA0 a0 carry :: rest2
            committed := resolveCommit q s.j s.committed s.nines s.predigit
            nines := (updateBuffer q s.j s.nines s.predigit).1
            predigit := (updateBuffer q s.j s.nines s.predigit).2
            j := s.j + 1 }

/-- The outer loop of `calculatePiDigitsString`
(`for (int j = 0; j < n + 3; ++j)` with the early break at lines 165–167):
runs at most `fuel` iterations, stopping right after an iteration once
`calculated_digits.size() >= n + 1`.  Returns the final state together
with the number of iterations actually executed. -/
def outerLoop (n : ℤ) : SpigotState → ℕ → SpigotState × ℕ
  | s, 0 => (s, 0)
  | s, fuel + 1 =>
      let s2 := outerStep s
      if n + 1 ≤ (s2.committed.length : ℤ) then (s2, 1)
      else
        match outerLoop n s2 fuel with
        | (t, k) => (t, k + 1)

/-- The initial state of `calculatePiDigitsString` for input `n`
(`src/PiTime.cpp`, lines 110–120): `len = floor(10*n/3) + 3` entries all
equal to `2`, no committed digits, `nines = 0`, `predigit = 0`, `j = 0`. -/
def initState (n : ℤ) : SpigotState :=
  { a := List.replicate ((10 * n).tdiv 3 + 3).toNat 2
    committed := []
    nines := 0
    predigit := 0
    j := 0 }

/-- The state after the outer loop of `calculatePiDigitsString n` has run
(loop bound `n + 3`). -/
def finalState (n : ℤ) : SpigotState :=
  (outerLoop n (initState n) (n + 3).toNat).1

/-- Embedding of `num_decimal_digits_available`, `src/PiTime.cpp` line 173:
`size - 1` when the committed sequence is nonempty, else `0`. -/
def availableOf (committed : List ℤ) : ℤ :=
  if 0 < committed.length then (committed.length : ℤ) - 1 else 0

/-- Embedding of `digits_to_print`, `src/PiTime.cpp` line 174:
`min(n, num_decimal_digits_available)`. -/
def digitsToPrint (n : ℤ) (committed : List ℤ) : ℤ :=
  min n (availableOf committed)

/-- The output formatting of `calculatePiDigitsString`
(`src/PiTime.cpp`, lines 170–180): `"3."` followed by the committed
digits at indices `1 .. digits_to_print`, each printed in decimal. -/
def renderDigits (n : ℤ) (committed : List ℤ) : String :=
  "3." ++ String.join
    (((committed.drop 1).take (digitsToPrint n committed).toNat).map
      (fun d => toString d))

/-- Shallow embedding of `calculatePiDigitsString` from `src/PiTime.cpp`
(lines 105–181). -/
def calculatePiDigitsString (n : ℤ) : String :=
  if n ≤ 0 then "3."
  else renderDigits n (finalState n).committed

/-- Entrywise bounds for a slice of the state vector starting at index
`i0`: each entry is nonnegative and below its mixed radix `2*i + 1`. -/
def BoundedFrom : ℕ → List ℤ → Prop
  | _, [] => True
  | i0, x :: xs => (0 ≤ x ∧ x < 2 * (i0 : ℤ) + 1) ∧ BoundedFrom (i0 + 1) xs

/-- Invariant of the whole state vector: `a[0]` is a decimal digit and
every later entry is bounded by its mixed radix. -/
def StateOK : List ℤ → Prop
  | [] => True
  | a0 :: rest => 0 ≤ a0 ∧ a0 ≤ 9 ∧ BoundedFrom 1 rest

/-- Modelled from the wording of the spec (§4.1, inner normalization pass), for
comparison with the code-derived `innerAux`: one step at index `i` maps
the entry `state[i]` and the incoming carry to
`num = state[i] * 10 + carry_in`, the new entry `num mod (2i + 1)` and
the outgoing carry `(num div (2i+1)) * i`, with mathematical (floor)
division and modulus. -/
def specInnerStep (i : ℕ) (stateI carryIn : ℤ) : ℤ × ℤ :=
  let num := stateI * 10 + carryIn
  (num % (2 * (i : ℤ) + 1), num / (2 * (i : ℤ) + 1) * (i : ℤ))

/-- Modelled from the wording of the spec (§4.1, steps 2–3), for comparison with
the code-derived `extractQ` and `extractA0`: `final = state[0]*10 + carry`,
candidate digit `q = final / 10` clamped to `10` when `q ≥ 10`, and new
`state[0] = final % 10`, with mathematical (floor) division and modulus.
Returns `(q, new state[0])`. -/
def specExtract (state0 carry : ℤ) : ℤ × ℤ :=
  let final := state0 * 10 + carry
  let q := final / 10
  (if 10 ≤ q then 10 else q, final % 10)

/-- Unfolding equation for `innerAux` on an empty slice. -/
theorem innerAux_nil (i0 : ℕ) (c : ℤ) : innerAux i0 [] c = ([], c) := rfl

/-- Unfolding equation for `innerAux` on a nonempty slice: the tail
(higher indices) is processed first, its carry feeds position `i0`. -/
theorem innerAux_cons (i0 : ℕ) (x : ℤ) (xs : List ℤ) (c : ℤ) :
    innerAux i0 (x :: xs) c =
      (Int.tmod (x * 10 + (innerAux (i0 + 1) xs c).2) (2 * (i0 : ℤ) + 1) ::
         (innerAux (i0 + 1) xs c).1,
       Int.tdiv (x * 10 + (innerAux (i0 + 1) xs c).2) (2 * (i0 : ℤ) + 1) * (i0 : ℤ)) :=
  rfl

/-- The inner pass never changes the length of the processed slice. -/
theorem innerAux_length : ∀ (xs : List ℤ) (i0 : ℕ) (c : ℤ),
    (innerAux i0 xs c).1.length = xs.length
  | [], _, _ => rfl
  | x :: xs, i0, c => by
      rw [innerAux_cons]
      simp [innerAux_length xs (i0 + 1) c]

/-- Entries of a bounded slice are nonnegative. -/
theorem boundedFrom_nonneg : ∀ (xs : List ℤ) (i0 : ℕ), BoundedFrom i0 xs →
    ∀ x ∈ xs, 0 ≤ x
  | [], _, _, x, hx => absurd hx (List.not_mem_nil x)
  | y :: ys, i0, h, x, hx => by
      rcases List.mem_cons.mp hx with hxy | hxs

      · exact hxy ▸ h.1.1
      · exact boundedFrom_nonneg ys (i0 + 1) h.2 x hxs

/-- Index-wise reading of `BoundedFrom`: the entry at offset `k` of a
slice starting at index `i0` lies in `[0, 2*(i0+k)+1)`. -/
theorem boundedFrom_get : ∀ (xs : List ℤ) (i0 : ℕ), BoundedFrom i0 xs →
    ∀ (k : ℕ) (h : k < xs.length),
      0 ≤ xs.get ⟨k, h⟩ ∧ xs.get ⟨k, h⟩ < 2 * ((i0 + k : ℕ) : ℤ) + 1
  | y :: ys, i0, h, 0, hk => by
      simpa using h.1
  | y :: ys, i0, h, k + 1, hk => by
      have hr := boundedFrom_get ys (i0 + 1) h.2 k (Nat.lt_of_succ_lt_succ hk)
      have harith : i0 + 1 + k = i0 + (k + 1) := by omega
      simpa [harith] using hr

/-- Core invariant of the inner pass: starting from a slice of
nonnegative entries and a nonnegative carry, the produced slice is
entrywise bounded by its mixed radices and the outgoing carry is
nonnegative. -/
theorem innerAux_spec : ∀ (xs : List ℤ) (i0 : ℕ) (c : ℤ), 0 ≤ c →
    (∀ x ∈ xs, 0 ≤ x) →
    BoundedFrom i0 (innerAux i0 xs c).1 ∧ 0 ≤ (innerAux i0 xs c).2
  | [], i0, c, hc, _ => by
      rw [innerAux_nil]
      exact ⟨trivial, hc⟩
  | x :: xs, i0, c, hc, hxs => by
      have hx : 0 ≤ x := hxs x (List.mem_cons_self x xs)
      have htail := innerAux_spec xs (i0 + 1) c hc
        (fun y hy => hxs y (List.mem_cons_of_mem x hy))
      rw [innerAux_cons]
      have hnum : 0 ≤ x * 10 + (innerAux (i0 + 1) xs c).2 :=
        add_nonneg (mul_nonneg hx (by norm_num)) htail.2
      have hbase : (0 : ℤ) < 2 * (i0 : ℤ) + 1 := by positivity
      refine ⟨⟨⟨Int.tmod_nonneg _ hnum, ?_⟩, htail.1⟩, ?_⟩
      · rw [Int.tmod_eq_emod hnum (le_of_lt hbase)]
        exact Int.emod_lt_of_pos _ hbase
      · exact mul_nonneg (Int.tdiv_nonneg hnum (le_of_lt hbase)) (Int.ofNat_nonneg i0)

/-- A slice of `2`s starting at any positive index is bounded. -/
theorem boundedFrom_replicate_two : ∀ (m i0 : ℕ), 1 ≤ i0 →
    BoundedFrom i0 (List.replicate m 2)
  | 0, _, _ => trivial
  | m + 1, i0, h => by
      refine ⟨⟨by norm_num, ?_⟩, boundedFrom_replicate_two m (i0 + 1) (by omega)⟩
      have : (1 : ℤ) ≤ (i0 : ℤ) := by exact_mod_cast h
      omega

/-- Unfolding equation for `outerStep` on a nonempty state vector. -/
theorem outerStep_cons (s : SpigotState) (a0 : ℤ) (rest : List ℤ)
    (h : s.a = a0 :: rest) :
    outerStep s =
      { a := extractA0 a0 (innerAux 1 rest 0).2 :: (innerAux 1 rest 0).1
        committed := resolveCommit (extractQ a0 (innerAux 1 rest 0).2) s.j
          s.committed s.nines s.predigit
        nines := (updateBuffer (extractQ a0 (innerAux 1 rest 0).2) s.j
          s.nines s.predigit).1
        predigit := (updateBuffer (extractQ a0 (innerAux 1 rest 0).2) s.j
          s.nines s.predigit).2
        j := s.j + 1 } := by
  unfold outerStep
  rw [h]

/-- Unfolding equation for `outerStep` on an empty state vector. -/
theorem outerStep_nil (s : SpigotState) (h : s.a = []) : outerStep s = s := by
  unfold outerStep
  rw [h]

/-- One outer iteration preserves the length of the state vector. -/
theorem outerStep_a_length (s : SpigotState) :
    (outerStep s).a.length = s.a.length := by
  match h : s.a with
  | [] => rw [outerStep_nil s h, h]
  | a0 :: rest =>
      rw [outerStep_cons s a0 rest h]
      simp [h, innerAux_length]

/-- One outer iteration preserves the state-vector invariant. -/
theorem outerStep_ok (s : SpigotState) (h : StateOK s.a) :
    StateOK (outerStep s).a := by
  match ha : s.a with
  | [] => rw [outerStep_nil s ha]; exact h
  | a0 :: rest =>
      rw [ha] at h
      obtain ⟨h0, h9, hb⟩ := h
      have hinner := innerAux_spec rest 1 0 le_rfl (boundedFrom_nonneg rest 1 hb)
      rw [outerStep_cons s a0 rest ha]
      have hnum : 0 ≤ a0 * 10 + (innerAux 1 rest 0).2 :=
        add_nonneg (mul_nonneg h0 (by norm_num)) hinner.2
      refine ⟨Int.tmod_nonneg _ hnum, ?_, hinner.1⟩
      have : Int.tmod (a0 * 10 + (innerAux 1 rest 0).2) 10 < 10 := by
        rw [Int.tmod_eq_emod hnum (by norm_num)]
        exact Int.emod_lt_of_pos _ (by norm_num)
      unfold extractA0
      omega

/-- Unfolding equation for `outerLoop` on positive fuel. -/
theorem outerLoop_succ (n : ℤ) (s : SpigotState) (fuel : ℕ) :
    outerLoop n s (fuel + 1) =
      if n + 1 ≤ ((outerStep s).committed.length : ℤ) then (outerStep s, 1)
      else ((outerLoop n (outerStep s) fuel).1, (outerLoop n (outerStep s) fuel).2 + 1) :=
  rfl

/-- Unfolding equation for `outerLoop` when the break condition fires:
the loop stops right after the iteration that satisfied it. -/
theorem outerLoop_succ_break (n : ℤ) (s : SpigotState) (fuel : ℕ)
    (h : n + 1 ≤ ((outerStep s).committed.length : ℤ)) :
    outerLoop n s (fuel + 1) = (outerStep s, 1) := by
  rw [outerLoop_succ, if_pos h]

/-- Unfolding equation for `outerLoop` when the break condition fails:
the loop continues with the stepped state. -/
theorem outerLoop_succ_cont (n : ℤ) (s : SpigotState) (fuel : ℕ)
    (h : ¬ n + 1 ≤ ((outerStep s).committed.length : ℤ)) :
    outerLoop n s (fuel + 1) =
      ((outerLoop n (outerStep s) fuel).1, (outerLoop n (outerStep s) fuel).2 + 1) := by
  rw [outerLoop_succ, if_neg h]

/-- The outer loop executes at most `fuel` iterations. -/
theorem outerLoop_count_le : ∀ (fuel : ℕ) (n : ℤ) (s : SpigotState),
    (outerLoop n s fuel).2 ≤ fuel
  | 0, _, _ => le_rfl
  | fuel + 1, n, s => by
      by_cases h : n + 1 ≤ ((outerStep s).committed.length : ℤ)
      · rw [outerLoop_succ_break n s fuel h]
        omega
      · rw [outerLoop_succ_cont n s fuel h]
        have := outerLoop_count_le fuel n (outerStep s)
        omega

/-- The outer loop preserves the length of the state vector. -/
theorem outerLoop_a_length : ∀ (fuel : ℕ) (n : ℤ) (s : SpigotState),
    ((outerLoop n s fuel).1).a.length = s.a.length
  | 0, _, _ => rfl
  | fuel + 1, n, s => by
      by_cases h : n + 1 ≤ ((outerStep s).committed.length : ℤ)
      · rw [outerLoop_succ_break n s fuel h]
        exact outerStep_a_length s
      · rw [outerLoop_succ_cont n s fuel h]
        have := outerLoop_a_length fuel n (outerStep s)
        simp [this, outerStep_a_length s]

/-- The outer loop preserves the state-vector invariant. -/
theorem outerLoop_ok : ∀ (fuel : ℕ) (n : ℤ) (s : SpigotState),
    StateOK s.a → StateOK ((outerLoop n s fuel).1).a
  | 0, _, _, h => h
  | fuel + 1, n, s, h => by
      by_cases hb : n + 1 ≤ ((outerStep s).committed.length : ℤ)
      · rw [outerLoop_succ_break n s fuel hb]
        exact outerStep_ok s h
      · rw [outerLoop_succ_cont n s fuel hb]
        exact outerLoop_ok fuel n (outerStep s) (outerStep_ok s h)

/-- The initial state vector satisfies the invariant. -/
theorem initState_ok (n : ℤ) : StateOK (initState n).a := by
  unfold initState StateOK
  match h : List.replicate ((10 * n).tdiv 3 + 3).toNat (2 : ℤ) with
  | [] => exact trivial
  | a0 :: rest =>
      have hmem : ∀ x ∈ List.replicate ((10 * n).tdiv 3 + 3).toNat (2 : ℤ), x = 2 :=
        fun x hx => List.eq_of_mem_replicate hx
      have ha0 : a0 = 2 := hmem a0 (h ▸ List.mem_cons_self a0 rest)
      have hrest : rest = List.replicate rest.length 2 :=
        List.eq_replicate_of_mem (fun x hx => hmem x (h ▸ List.mem_cons_of_mem a0 hx))
      refine ⟨by omega, by omega, ?_⟩
      rw [hrest]
      exact boundedFrom_replicate_two rest.length 1 le_rfl

/-- In the first outer iteration, positions with index at least `10` of
the all-`2`s vector emit no carry: `2 * 10 < 2*i + 1` there. -/
theorem innerAux_replicate_high : ∀ (m i0 : ℕ), 10 ≤ i0 →
    (innerAux i0 (List.replicate m 2) 0).2 = 0
  | 0, _, _ => rfl
  | m + 1, i0, h => by
      rw [List.replicate_succ, innerAux_cons,
        innerAux_replicate_high m (i0 + 1) (by omega)]
      have hlt : (2 : ℤ) * 10 + 0 < 2 * (i0 : ℤ) + 1 := by
        have : (10 : ℤ) ≤ (i0 : ℤ) := by exact_mod_cast h
        omega
      rw [Int.tdiv_eq_ediv (by norm_num) (by positivity),
        Int.ediv_eq_zero_of_lt (by norm_num) hlt, zero_mul]

/-- The carry produced by the inner pass over a concatenated slice equals
the carry of the left part fed with the carry of the right part. -/
theorem innerAux_carry_append : ∀ (xs ys : List ℤ) (i0 : ℕ) (c : ℤ),
    (innerAux i0 (xs ++ ys) c).2 =
      (innerAux i0 xs (innerAux (i0 + xs.length) ys c).2).2
  | [], ys, i0, c => by simp [innerAux_nil]
  | x :: xs, ys, i0, c => by
      rw [List.cons_append, innerAux_cons,
        innerAux_carry_append xs ys (i0 + 1) c, innerAux_cons]
      have : i0 + (x :: xs).length = i0 + 1 + xs.length := by
        simp [List.length_cons]
        omega
      rw [this]

/-- In the first outer iteration the carry flowing out of index `1` is
`10`, for every state-vector length of at least `6`. -/
theorem innerAux_replicate_carry (m : ℕ) (h : 5 ≤ m) :
    (innerAux 1 (List.replicate m (2 : ℤ)) 0).2 = 10 := by
  by_cases h9 : m < 9
  · interval_cases m
    · rfl
    · rfl
    · rfl
    · rfl
  · obtain ⟨k, rfl⟩ : ∃ k, m = 9 + k := ⟨m - 9, by omega⟩
    rw [List.replicate_add, innerAux_carry_append,
      innerAux_replicate_high k (1 + (List.replicate 9 (2 : ℤ)).length) (by simp)]
    rfl

/-- On the very first outer iteration of every run with `n ≥ 1`, the
candidate digit is `3`: nothing is committed and `predigit` becomes `3`. -/
theorem outerStep_init (n : ℤ) (hn : 1 ≤ n) :
    (outerStep (initState n)).committed = [] ∧
      (outerStep (initState n)).predigit = 3 ∧
      (outerStep (initState n)).nines = 0 := by
  have h10 : (10 : ℤ) ≤ 10 * n := by omega
  have ht : (3 : ℤ) ≤ (10 * n).tdiv 3 := by
    rw [Int.tdiv_eq_ediv (by omega) (by norm_num)]
    calc (3 : ℤ) = 10 / 3 := by norm_num
    _ ≤ 10 * n / 3 := Int.ediv_le_ediv (by norm_num) h10
  have hL : 6 ≤ ((10 * n).tdiv 3 + 3).toNat := by omega
  obtain ⟨m, hm⟩ : ∃ m, ((10 * n).tdiv 3 + 3).toNat = m + 1 :=
    ⟨((10 * n).tdiv 3 + 3).toNat - 1, by omega⟩
  have hm5 : 5 ≤ m := by omega
  have ha : (initState n).a = 2 :: List.replicate m 2 := by
    unfold initState
    rw [hm, List.replicate_succ]
  rw [outerStep_cons (initState n) 2 (List.replicate m 2) ha]
  have hq : extractQ 2 (innerAux 1 (List.replicate m 2) 0).2 = 3 := by
    rw [innerAux_replicate_carry m hm5]
    rfl
  refine ⟨?_, ?_, ?_⟩
  · simp [resolveCommit, initState]
  · simp [hq, updateBuffer, initState]
  · simp [hq, updateBuffer, initState]

/-- Index-wise reading of the full state-vector invariant. -/
theorem stateOK_get (a : List ℤ) (h : StateOK a) :
    (∀ h0 : 0 < a.length, 0 ≤ a.get ⟨0, h0⟩ ∧ a.get ⟨0, h0⟩ ≤ 9) ∧
    (∀ (i : ℕ) (hi : i < a.length), 1 ≤ i →
      0 ≤ a.get ⟨i, hi⟩ ∧ a.get ⟨i, hi⟩ < 2 * (i : ℤ) + 1) := by
  match a, h with
  | [], _ =>
      exact ⟨fun h0 => absurd h0 (by simp), fun i hi _ => absurd hi (by simp)⟩
  | a0 :: rest, ⟨h0, h9, hb⟩ =>
      refine ⟨fun _ => ⟨h0, h9⟩, ?_⟩
      intro i hi h1
      obtain ⟨k, rfl⟩ : ∃ k, i = k + 1 := ⟨i - 1, by omega⟩
      have hk : k < rest.length := by simpa using hi
      have hr := boundedFrom_get rest 1 hb k hk
      have hget : (a0 :: rest).get ⟨k + 1, hi⟩ = rest.get ⟨k, hk⟩ := rfl
      rw [hget]
      have harith : ((1 + k : ℕ) : ℤ) = (k : ℤ) + 1 := by push_cast; ring
      refine ⟨hr.1, ?_⟩
      have hb2 := hr.2
      rw [harith] at hb2
      push_cast
      omega

set_option maxRecDepth 400000 in
/-- Claim C2: `calculatePiDigitsString 1` is exactly `"3.1"`,
`calculatePiDigitsString 10` is exactly `"3.1415926535"`, and the digit
portion of `calculatePiDigitsString 50` is the first 50 published decimal
digits of π. -/
theorem generate_reference_values :
    calculatePiDigitsString 1 = "3.1" ∧
    calculatePiDigitsString 10 = "3.1415926535" ∧
    calculatePiDigitsString 50 =
      "3.14159265358979323846264338327950288419716939937510" :=
  ⟨rfl, rfl, rfl⟩

set_option maxRecDepth 40000 in
/-- Claim C3, evaluation at the failing input: the digit portion of
`calculatePiDigitsString 2` is `"13"` (the program misreports the second
decimal digit of π, which is 4), the digit portion of
`calculatePiDigitsString 3` is `"141"`, and the former is not a prefix
of the latter.  So requesting more digits does change previously
produced digits, refuting the monotonic-prefix property. -/
theorem generate_not_monotonic :
    (calculatePiDigitsString 2).drop 2 = "13" ∧
    (calculatePiDigitsString 3).drop 2 = "141" ∧
    ((calculatePiDigitsString 3).drop 2).take 2 ≠ (calculatePiDigitsString 2).drop 2 :=
  ⟨rfl, rfl, by decide⟩

/-- Claim C6: for every `n ≤ 0` (including every negative `n`),
`calculatePiDigitsString n` returns exactly `"3."`, identically to
`n = 0`; the function is total, so no error is raised. -/
theorem generate_nonpositive (n : ℤ) (h : n ≤ 0) :
    calculatePiDigitsString n = "3." ∧
    calculatePiDigitsString n = calculatePiDigitsString 0 := by
  constructor
  · unfold calculatePiDigitsString
    rw [if_pos h]
  · unfold calculatePiDigitsString
    rw [if_pos h, if_pos le_rfl]

/-- Witness for claim C6 at the concrete input `n = -7`. -/
theorem generate_nonpositive_w :
    calculatePiDigitsString (-7) = "3." ∧
    calculatePiDigitsString (-7) = calculatePiDigitsString 0 :=
  generate_nonpositive (-7) (by norm_num)

/-- Claim C4: in every outer iteration after the first (`0 < j`), the
buffering resolution on the candidate digit `q` commits and updates
exactly as specified for the three cases `q < 9`, `q = 10` and `q = 9`;
on the very first outer iteration nothing is committed, `nines` is kept
and `predigit` is set to `q` directly (for every digit value `q ≤ 9`;
in every actual run with `n ≥ 1` the first candidate is `3`, as the last
conjunct shows on the real initial state). -/
theorem buffering_resolution :
    (∀ (q : ℤ) (j : ℕ) (com : List ℤ) (ni pre : ℤ), 0 < j →
      (q < 9 →
        resolveCommit q j com ni pre = com ++ pre :: List.replicate ni.toNat 9 ∧
        updateBuffer q j ni pre = (0, q)) ∧
      (q = 10 →
        resolveCommit q j com ni pre = com ++ (pre + 1) :: List.replicate ni.toNat 0 ∧
        updateBuffer q j ni pre = (0, 0)) ∧
      (q = 9 →
        resolveCommit q j com ni pre = com ∧
        updateBuffer q j ni pre = (ni + 1, pre))) ∧
    (∀ (q : ℤ) (com : List ℤ) (ni pre : ℤ), q ≤ 9 →
      resolveCommit q 0 com ni pre = com ∧ updateBuffer q 0 ni pre = (ni, q)) ∧
    (∀ n : ℤ, 1 ≤ n →
      (outerStep (initState n)).committed = [] ∧
      (outerStep (initState n)).predigit = 3) := by
  refine ⟨?_, ?_, ?_⟩
  · intro q j com ni pre hj
    refine ⟨?_, ?_, ?_⟩
    · intro hq
      constructor
      · unfold resolveCommit
        rw [if_pos hj, if_pos hq]
      · unfold updateBuffer
        rw [if_pos hq, if_pos hj]
    · intro hq
      subst hq
      constructor
      · unfold resolveCommit
        rw [if_pos hj, if_neg (by norm_num), if_pos rfl]
      · unfold updateBuffer
        rw [if_neg (by norm_num), if_neg (by norm_num)]
        simp [hj]
    · intro hq
      subst hq
      constructor
      · unfold resolveCommit
        rw [if_pos hj, if_neg (by norm_num), if_neg (by norm_num)]
      · unfold updateBuffer
        rw [if_neg (by norm_num), if_pos rfl]
        simp [hj]
  · intro q com ni pre hq
    constructor
    · unfold resolveCommit
      rw [if_neg (by omega)]
    · unfold updateBuffer
      rcases lt_or_eq_of_le hq with h | h
      · rw [if_pos h]
        simp
      · subst h
        rw [if_neg (by norm_num), if_pos rfl]
        simp
  · intro n hn
    exact ⟨(outerStep_init n hn).1, (outerStep_init n hn).2.1⟩

/-- Witness for claim C4 at concrete inputs: the three `0 < j` cases at
`j = 1`, the first-iteration case at `q = 7`, and the first iteration of
the real run for `n = 1`. -/
theorem buffering_resolution_w :
    (resolveCommit 5 1 [3] 2 7 = [3] ++ 7 :: List.replicate (Int.toNat 2) 9 ∧
      updateBuffer 5 1 2 7 = (0, 5)) ∧
    (resolveCommit 10 1 [3] 2 7 = [3] ++ (7 + 1) :: List.replicate (Int.toNat 2) 0 ∧
      updateBuffer 10 1 2 7 = (0, 0)) ∧
    (resolveCommit 9 1 [3] 2 7 = [3] ∧ updateBuffer 9 1 2 7 = (2 + 1, 7)) ∧
    (resolveCommit 7 0 [] 0 0 = [] ∧ updateBuffer 7 0 0 0 = (0, 7)) ∧
    ((outerStep (initState 1)).committed = [] ∧
      (outerStep (initState 1)).predigit = 3) :=
  ⟨(buffering_resolution.1 5 1 [3] 2 7 (by norm_num)).1 (by norm_num),
   (buffering_resolution.1 10 1 [3] 2 7 (by norm_num)).2.1 rfl,
   (buffering_resolution.1 9 1 [3] 2 7 (by norm_num)).2.2 rfl,
   buffering_resolution.2.1 7 [] 0 0 (by norm_num),
   buffering_resolution.2.2 1 (by norm_num)⟩

/-- Claim C5: each outer iteration transforms the state vector exactly as
the spec describes.  The inner pass (processing indices from `len-1` down
to `1`, carry flowing right to left) computes at each index `i` the value
`num = state[i]*10 + carry`, new entry `num mod (2i+1)` and carry
`(num div (2i+1)) * i` (first conjunct, comparing the code-derived
`innerAux` with the spec-worded `specInnerStep`); the extraction computes
`final = state[0]*10 + carry`, candidate `q = final div 10` clamped at
`10`, and `state[0] = final mod 10` (second conjunct, comparing the
code-derived `extractQ`/`extractA0` with the spec-worded `specExtract`).
The hypotheses of nonnegativity are the reachable-state invariant proved
in the claim about state bounds. -/
theorem inner_pass_matches_spec :
    (∀ (i0 : ℕ) (x : ℤ) (xs : List ℤ) (c : ℤ), 0 ≤ x → 0 ≤ c →
      (∀ y ∈ xs, 0 ≤ y) →
      innerAux i0 (x :: xs) c =
        ((specInnerStep i0 x (innerAux (i0 + 1) xs c).2).1 ::
           (innerAux (i0 + 1) xs c).1,
         (specInnerStep i0 x (innerAux (i0 + 1) xs c).2).2)) ∧
    (∀ a0 carry : ℤ, 0 ≤ a0 → 0 ≤ carry →
      extractQ a0 carry = (specExtract a0 carry).1 ∧
      extractA0 a0 carry = (specExtract a0 carry).2) := by
  constructor
  · intro i0 x xs c hx hc hxs
    have hcarry := (innerAux_spec xs (i0 + 1) c hc hxs).2
    have hnum : 0 ≤ x * 10 + (innerAux (i0 + 1) xs c).2 :=
      add_nonneg (mul_nonneg hx (by norm_num)) hcarry
    have hbase : (0 : ℤ) ≤ 2 * (i0 : ℤ) + 1 := by positivity
    rw [innerAux_cons]
    simp only [specInnerStep]
    rw [Int.tmod_eq_emod hnum hbase, Int.tdiv_eq_ediv hnum hbase]
  · intro a0 carry h0 hc
    have hnum : 0 ≤ a0 * 10 + carry :=
      add_nonneg (mul_nonneg h0 (by norm_num)) hc
    unfold extractQ extractA0 specExtract
    rw [Int.tdiv_eq_ediv hnum (by norm_num), Int.tmod_eq_emod hnum (by norm_num)]
    exact ⟨rfl, rfl⟩

/-- Witness for claim C5 at concrete inputs: one inner step at index `1`
over the slice `[2, 2]` with carry `0`, and the extraction at
`state[0] = 2`, carry `10`. -/
theorem inner_pass_matches_spec_w :
    innerAux 1 (2 :: [2]) 0 =
      ((specInnerStep 1 2 (innerAux 2 [2] 0).2).1 :: (innerAux 2 [2] 0).1,
       (specInnerStep 1 2 (innerAux 2 [2] 0).2).2) ∧
    (extractQ 2 10 = (specExtract 2 10).1 ∧
      extractA0 2 10 = (specExtract 2 10).2) :=
  ⟨inner_pass_matches_spec.1 1 2 [2] 0 (by norm_num) (by norm_num) (by decide),
   inner_pass_matches_spec.2 2 10 (by norm_num) (by norm_num)⟩

/-- Claim C7: the generator terminates for every input.  The embedded
outer loop of `calculatePiDigitsString n` executes at most `n + 3`
iterations (first conjunct), and it exits early as soon as the committed
digit sequence holds at least `n + 1` entries: whenever the iteration
just executed reaches that size, the loop returns immediately after it
regardless of the remaining fuel (second conjunct). -/
theorem outer_loop_bounds (n : ℤ) (hn : 1 ≤ n) :
    ((outerLoop n (initState n) (n + 3).toNat).2 : ℤ) ≤ n + 3 ∧
    (∀ (s : SpigotState) (fuel : ℕ),
      n + 1 ≤ ((outerStep s).committed.length : ℤ) →
      outerLoop n s (fuel + 1) = (outerStep s, 1)) := by
  constructor
  · have h1 := outerLoop_count_le (n + 3).toNat n (initState n)
    have h2 : ((n + 3).toNat : ℤ) = n + 3 := Int.toNat_of_nonneg (by omega)
    omega
  · exact fun s fuel h => outerLoop_succ_break n s fuel h

/-- Witness for claim C7: the iteration bound at `n = 1`, and the early
exit on a concrete state whose next iteration commits enough digits. -/
theorem outer_loop_bounds_w :
    ((outerLoop 1 (initState 1) ((1 : ℤ) + 3).toNat).2 : ℤ) ≤ 1 + 3 ∧
    outerLoop 1 (SpigotState.mk [1, 0] [0, 0, 0] 0 4 5) (0 + 1) =
      (outerStep (SpigotState.mk [1, 0] [0, 0, 0] 0 4 5), 1) :=
  ⟨(outer_loop_bounds 1 (by norm_num)).1,
   (outer_loop_bounds 1 (by norm_num)).2
     (SpigotState.mk [1, 0] [0, 0, 0] 0 4 5) 0 (by decide)⟩

/-- Claim C8: for every `n ≥ 1` the state vector is allocated with length
`floor(10*n/3) + 3` (here `10 * n / 3` is mathematical floor division,
which the C++ float computation realizes exactly), every entry is
initialized to `2`, and the vector length never changes during the
computation. -/
theorem state_vector_sizing (n : ℤ) (hn : 1 ≤ n) :
    ((initState n).a.length : ℤ) = 10 * n / 3 + 3 ∧
    (∀ x ∈ (initState n).a, x = 2) ∧
    (∀ fuel : ℕ,
      ((outerLoop n (initState n) fuel).1).a.length = (initState n).a.length) := by
  refine ⟨?_, ?_, ?_⟩
  · have hnn : (0 : ℤ) ≤ (10 * n).tdiv 3 :=
      Int.tdiv_nonneg (by omega) (by norm_num)
    simp only [initState, List.length_replicate]
    rw [Int.toNat_of_nonneg (by omega), Int.tdiv_eq_ediv (by omega) (by norm_num)]
  · intro x hx
    exact List.eq_of_mem_replicate hx
  · intro fuel
    exact outerLoop_a_length fuel n (initState n)

/-- Witness for claim C8 at `n = 2` (and five loop iterations for the
length-preservation conjunct). -/
theorem state_vector_sizing_w :
    ((initState 2).a.length : ℤ) = 10 * 2 / 3 + 3 ∧
    ((outerLoop 2 (initState 2) 5).1).a.length = (initState 2).a.length :=
  ⟨(state_vector_sizing 2 (by norm_num)).1,
   (state_vector_sizing 2 (by norm_num)).2.2 5⟩

/-- Claim C9: at the end of every outer iteration (in fact after any
number of loop iterations, including zero), the state vector satisfies
`0 ≤ a[0] ≤ 9` and `0 ≤ a[i] < 2*i + 1` for every index `i ≥ 1`; and the
carry of the inner pass is nonnegative at every step (every intermediate
carry is the outgoing carry of `innerAux` on some suffix of the vector,
with nonnegative entries and incoming carry). -/
theorem state_invariant (n : ℤ) (_hn : 1 ≤ n) (fuel : ℕ) :
    (∀ h0 : 0 < ((outerLoop n (initState n) fuel).1).a.length,
      0 ≤ ((outerLoop n (initState n) fuel).1).a.get ⟨0, h0⟩ ∧
      ((outerLoop n (initState n) fuel).1).a.get ⟨0, h0⟩ ≤ 9) ∧
    (∀ (i : ℕ) (hi : i < ((outerLoop n (initState n) fuel).1).a.length), 1 ≤ i →
      0 ≤ ((outerLoop n (initState n) fuel).1).a.get ⟨i, hi⟩ ∧
      ((outerLoop n (initState n) fuel).1).a.get ⟨i, hi⟩ < 2 * (i : ℤ) + 1) ∧
    (∀ (i0 : ℕ) (xs : List ℤ) (c : ℤ), 0 ≤ c → (∀ x ∈ xs, 0 ≤ x) →
      0 ≤ (innerAux i0 xs c).2) := by
  have hok := outerLoop_ok fuel n (initState n) (initState_ok n)
  have hb := stateOK_get _ hok
  exact ⟨hb.1, hb.2, fun i0 xs c hc hxs => (innerAux_spec xs i0 c hc hxs).2⟩

/-- Witness for claim C9 at `n = 1` after two iterations, reading entry
`0` and entry `1`, and a concrete inner-pass carry. -/
theorem state_invariant_w :
    (0 ≤ ((outerLoop 1 (initState 1) 2).1).a.get ⟨0, by decide⟩ ∧
      ((outerLoop 1 (initState 1) 2).1).a.get ⟨0, by decide⟩ ≤ 9) ∧
    (0 ≤ ((outerLoop 1 (initState 1) 2).1).a.get ⟨1, by decide⟩ ∧
      ((outerLoop 1 (initState 1) 2).1).a.get ⟨1, by decide⟩ < 2 * (1 : ℤ) + 1) ∧
    0 ≤ (innerAux 3 [2, 2] 0).2 :=
  ⟨(state_invariant 1 (by norm_num) 2).1 (by decide),
   (state_invariant 1 (by norm_num) 2).2.1 1 (by decide) (by norm_num),
   (state_invariant 1 (by norm_num) 2).2.2 3 [2, 2] 0 (by norm_num) (by decide)⟩

/-- Claim C10: every sequence access in the embedded generator is within
bounds and the function is total.  The inner pass reads and writes a
slice of exactly the original length (so only indices `0 .. len-1`;
first two conjuncts), and the output step reads committed index `i + 1`
only for `i < min(n, size - 1)`, which is always a valid index (third
conjunct); the guard for the empty committed sequence forces zero digits
to be printed (fourth conjunct). -/
theorem access_safety (n : ℤ) (hn : 1 ≤ n) :
    (∀ (i0 : ℕ) (xs : List ℤ) (c : ℤ), (innerAux i0 xs c).1.length = xs.length) ∧
    (∀ s : SpigotState, (outerStep s).a.length = s.a.length) ∧
    (∀ i : ℕ, i < (digitsToPrint n (finalState n).committed).toNat →
      i + 1 < (finalState n).committed.length) ∧
    ((finalState n).committed.length = 0 →
      digitsToPrint n (finalState n).committed = 0) := by
  refine ⟨fun i0 xs c => innerAux_length xs i0 c, outerStep_a_length, ?_, ?_⟩
  · intro i hi
    by_cases hlen : 0 < (finalState n).committed.length
    · have hav : availableOf (finalState n).committed =
          ((finalState n).committed.length : ℤ) - 1 := by
        unfold availableOf
        rw [if_pos hlen]
      have hle : digitsToPrint n (finalState n).committed ≤
          ((finalState n).committed.length : ℤ) - 1 := by
        rw [digitsToPrint, hav]
        exact min_le_right _ _
      omega
    · have hav : availableOf (finalState n).committed = 0 := by
        unfold availableOf
        rw [if_neg hlen]
      have hle : digitsToPrint n (finalState n).committed ≤ 0 := by
        rw [digitsToPrint, hav]
        exact min_le_right _ _
      omega
  · intro hz
    have hav : availableOf (finalState n).committed = 0 := by
      unfold availableOf
      rw [hz]
      norm_num
    unfold digitsToPrint
    rw [hav]
    omega

/-- Witness for claim C10 at `n = 1`: a concrete inner-pass length, a
concrete outer-step length, and the committed access at `i = 0`. -/
theorem access_safety_w :
    (innerAux 1 [2, 2] 0).1.length = ([2, 2] : List ℤ).length ∧
    (outerStep (initState 1)).a.length = (initState 1).a.length ∧
    0 + 1 < (finalState 1).committed.length :=
  ⟨(access_safety 1 le_rfl).1 1 [2, 2] 0,
   (access_safety 1 le_rfl).2.1 (initState 1),
   (access_safety 1 le_rfl).2.2.1 0 (by decide)⟩
